/-
A verification development for the `resist` resistor-band decoder.

The source consists of two Python files:
  * `resit.py`  — the image-analysis pipeline (`_estimate_min_area`,
    `_preprocess`, `_resistor_roi_mask`, `findBands`, `validContours`,
    `displayResults`) together with the static colour taxonomy
    `Colour_Range` and the red wrap-around range `Red_top_low/high`;
  * `app.py`    — the `analyze` entry point that decodes the sorted band
    list into a resistance value.

Below, each Python function that the properties refer to is translated
into a Lean definition over exact arithmetic:
  * Python `int` becomes `ℤ`; image dimensions and pixel channel values
    become `ℕ`;
  * the floating-point resize-scale computation of `_preprocess` is
    modelled by an explicit binary64 round-to-nearest-even function `fl`
    over `ℚ` (doubles are rationals; both operations involved —
    one division, one multiplication — are correctly rounded, and all
    operands stay far from overflow/subnormal range, so this model is
    exact);
  * the comparison against the float literal `0.40` in `validContours`
    is modelled by the exact rational comparison with `2/5`: the operand
    `float(w)/h` is a single correctly rounded quotient of bounding-box
    integers, whose distance from `2/5` is either zero (where both
    comparisons reject) or at least `1/(5h)` — many orders of magnitude
    above the rounding error and the literal's offset from `2/5`
    (≲ 10⁻¹⁶ relative), so the two comparisons agree for every
    realistic bounding box;
  * `int(0.0005 * h * w)` in `_estimate_min_area` is genuinely
    float-sensitive — the two intermediate roundings of
    `(0.0005*h)*w` can land just below an integer, one less than the
    exact `⌊h·w/2000⌋` — so it is modelled with the same binary64
    emulation as the resize scale (`pyMinAreaFloat`);
  * Python strings are `List Char`; `str` of an integer and `int` of a
    string are modelled by `pyStr` / `pyIntParse` (sign + decimal digits;
    the underscore/whitespace liberality of Python's `int` is omitted, it
    is unreachable from strings produced by `str`).
-/
import Mathlib

namespace Resist

/-! ## Data model

`resit.py` keeps each taxonomy entry as a 5-element list
`[lower, upper, name, digit, display]` and each detected band as the
tuple `leftmost_point + tuple(clr[2:]) = (x, y, name, digit, display)`.
We give both a structure with the same fields. -/

/-- One entry of `Colour_Range` (`resit.py` lines 11–22). -/
structure ColorSpec where
  lo : ℕ × ℕ × ℕ
  hi : ℕ × ℕ × ℕ
  name : String
  digit : ℤ
  display : ℕ × ℕ × ℕ
deriving DecidableEq, Repr

/-- One candidate band, the tuple `lmp + tuple(clr[2:])` appended to
`bandpos` in `findBands` (`resit.py` line 162). -/
structure Band where
  x : ℤ
  y : ℤ
  color : String
  digit : ℤ
  display : ℕ × ℕ × ℕ
deriving DecidableEq, Repr

/-- `Colour_Range` (`resit.py` lines 11–22), in source order. -/
def Colour_Range : List ColorSpec :=
  [ ⟨(0, 0, 0), (255, 255, 20), "BLACK", 0, (0, 0, 0)⟩,
    ⟨(0, 90, 10), (15, 250, 100), "BROWN", 1, (0, 51, 102)⟩,
    ⟨(0, 30, 80), (10, 255, 200), "RED", 2, (0, 0, 255)⟩,
    ⟨(5, 150, 150), (15, 235, 250), "ORANGE", 3, (0, 128, 255)⟩,
    ⟨(50, 100, 100), (70, 255, 255), "YELLOW", 4, (0, 255, 255)⟩,
    ⟨(45, 100, 50), (75, 255, 255), "GREEN", 5, (0, 255, 0)⟩,
    ⟨(100, 150, 0), (140, 255, 255), "BLUE", 6, (255, 0, 0)⟩,
    ⟨(120, 40, 100), (140, 250, 220), "VIOLET", 7, (255, 0, 127)⟩,
    ⟨(0, 0, 50), (179, 50, 80), "GRAY", 8, (128, 128, 128)⟩,
    ⟨(0, 0, 90), (179, 15, 250), "WHITE", 9, (255, 255, 255)⟩ ]

/-- `Red_top_low` (`resit.py` line 24). -/
def Red_top_low : ℕ × ℕ × ℕ := (160, 30, 80)

/-- `Red_top_high` (`resit.py` line 25). -/
def Red_top_high : ℕ × ℕ × ℕ := (179, 255, 200)

/-- The `RED` entry of `Colour_Range` (`resit.py` line 14). -/
def redSpec : ColorSpec := ⟨(0, 30, 80), (10, 255, 200), "RED", 2, (0, 0, 255)⟩

/-- The `Config` dataclass (`resit.py` lines 27–48), with the source's
defaults. -/
structure Config where
  max_dim : ℤ := 900
  blur : String := "gaussian"
  gaussian_ksize : ℤ := 7
  bilateral_d : ℤ := 9
  bilateral_sigma_color : ℤ := 75
  bilateral_sigma_space : ℤ := 75
  use_adaptive : Bool := false
  adaptive_block_size : ℤ := 51
  adaptive_C : ℤ := 2
  morph_kernel : ℤ := 3
  min_area : ℤ := 0
  debug : Bool := false
deriving DecidableEq, Repr

/-! ## Colour masks (`cv.inRange` and the per-colour mask of `findBands`) -/

/-- Per-pixel meaning of `cv.inRange(hsv, lo, hi)`: each channel lies in
the inclusive range. -/
def inRangeB (lo hi p : ℕ × ℕ × ℕ) : Bool :=
  decide (lo.1 ≤ p.1 ∧ p.1 ≤ hi.1 ∧
    lo.2.1 ≤ p.2.1 ∧ p.2.1 ≤ hi.2.1 ∧
    lo.2.2 ≤ p.2.2 ∧ p.2.2 ≤ hi.2.2)

/-- Per-pixel colour-range mask built by `findBands` (`resit.py`
lines 142–144): `mask = cv.inRange(img_hsv, clr[0], clr[1])`, and for the
`RED` entry additionally `mask = cv.bitwise_or(pre_red_mask, mask)` with
`pre_red_mask = cv.inRange(img_hsv, Red_top_low, Red_top_high)`
(line 134). -/
def colourMaskB (c : ColorSpec) (p : ℕ × ℕ × ℕ) : Bool :=
  if c.name = "RED" then inRangeB Red_top_low Red_top_high p || inRangeB c.lo c.hi p
  else inRangeB c.lo c.hi p

/-! ## `validContours` (`resit.py` lines 177–184)

`cv.contourArea` returns a nonnegative double; we take the area as an
exact `ℚ`.  `float(w) / h > 0.40` is modelled by the exact comparison
with `2/5` (see the header note on float literals). -/

def validContours (area : ℚ) (w h : ℕ) (min_area : ℤ) : Bool :=
  if area < (min_area : ℚ) then false
  else if h = 0 ∨ (2 : ℚ) / 5 < (w : ℚ) / (h : ℚ) then false
  else true

/-! ## Kernel-size coercions (`resit.py` lines 73, 80, 95–97) -/

/-- Python's `n | 1` on `int`: two's-complement bitwise or with 1 sets the
lowest bit, i.e. leaves odd `n` alone and adds 1 to even `n` (also for
negative `n`: `-4 | 1 == -3`). -/
def pyOrOne (n : ℤ) : ℤ := if n % 2 = 0 then n + 1 else n

/-- `k = max(3, cfg.gaussian_ksize | 1)` (`resit.py` line 73). -/
def gaussianKernelSize (cfg : Config) : ℤ := max 3 (pyOrOne cfg.gaussian_ksize)

/-- `b = max(3, cfg.adaptive_block_size | 1)` (`resit.py` line 80). -/
def adaptiveBlockSize (cfg : Config) : ℤ := max 3 (pyOrOne cfg.adaptive_block_size)

/-- The closing operation of `_resistor_roi_mask` (`resit.py` lines
95–97): structuring-element side `k = max(3, cfg.morph_kernel)` and
`iterations=2`. -/
structure MorphOp where
  size : ℤ
  iterations : ℕ
deriving DecidableEq, Repr

/-- `k = max(3, cfg.morph_kernel)`; `cv.morphologyEx(..., iterations=2)`
(`resit.py` lines 95–97). -/
def roiClosingOp (cfg : Config) : MorphOp :=
  ⟨max 3 cfg.morph_kernel, 2⟩

/-! ## Python `str` and `int` on integers (used by `app.py` lines 62–64
and `resit.py` lines 190–192)

Strings are `List Char`.  `natToChars` is written with an explicit fuel
argument (the number itself, always at least the digit count) so that it
is structurally recursive and evaluates inside the kernel. -/

/-- The decimal digit character for `n ≤ 9`. -/
def digitChar (n : ℕ) : Char := Char.ofNat (48 + n)

def natToCharsF : ℕ → ℕ → List Char
  | 0, _ => []
  | fuel + 1, n =>
    if n < 10 then [digitChar n]
    else natToCharsF fuel (n / 10) ++ [digitChar (n % 10)]

/-- Decimal digit string of a natural number. -/
def natToChars (n : ℕ) : List Char := natToCharsF (n + 1) n

/-- Python `str` of an `int`: decimal digits, `-`-prefixed when
negative. -/
def pyStr (n : ℤ) : List Char :=
  if n < 0 then '-' :: natToChars n.natAbs else natToChars n.natAbs

/-- Value of a decimal digit character, if it is one. -/
def digitVal (c : Char) : Option ℕ :=
  if 48 ≤ c.toNat ∧ c.toNat ≤ 57 then some (c.toNat - 48) else none

def parseDigitsAux (acc : ℕ) : List Char → Option ℕ
  | [] => some acc
  | c :: cs =>
    match digitVal c with
    | none => none
    | some d => parseDigitsAux (10 * acc + d) cs

/-- Parse a nonempty run of decimal digits. -/
def parseDigits : List Char → Option ℕ
  | [] => none
  | c :: cs =>
    match digitVal c with
    | none => none
    | some d => parseDigitsAux d cs

/-- Python `int(s)` on the strings reachable here: an optional sign
followed by decimal digits; anything else (in particular a `-` after the
first character, as in `"2-1"`) raises, modelled as `none`.  Python's
tolerance for surrounding whitespace and `_` separators is omitted: it is
unreachable from strings produced by `str` of integers. -/
def pyIntParse (s : List Char) : Option ℤ :=
  match s with
  | [] => none
  | c :: rest =>
    if c = '-' then (parseDigits rest).map (fun n => -(n : ℤ))
    else if c = '+' then (parseDigits rest).map (fun n => (n : ℤ))
    else (parseDigits s).map (fun n => (n : ℤ))

/-! ## Band decoding (`app.py` lines 58–78, `resit.py` lines 187–195) -/

/-- `digits = ''.join(str(b[3]) for b in bands[:-1])` (`app.py`
line 62). -/
def digitsChars (bands : List Band) : List Char :=
  (bands.dropLast.map (fun b => pyStr b.digit)).flatten

/-- `value_ohms` as computed by `analyze` (`app.py` lines 59–66):
`None` unless the band count is 3, 4 or 5; then
`int(digits) * (10 ** bands[-1][3])`, with the whole expression guarded
by `try/except` (parse failure leaves it `None`).  A negative multiplier
digit would make Python's `10 ** e` a float, so the value would not be an
integer; that branch is unreachable from the 0–9 taxonomy digits and is
modelled as absent. -/
def value_ohms (bands : List Band) : Option ℤ :=
  if bands.length = 3 ∨ bands.length = 4 ∨ bands.length = 5 then
    match bands.getLast? with
    | none => none
    | some lastB =>
      match pyIntParse (digitsChars bands) with
      | none => none
      | some base =>
        if 0 ≤ lastB.digit then some (base * 10 ^ lastB.digit.toNat) else none
  else none

/-- The response payload assembled by `analyze` (`app.py` lines 58–78):
the band list (serialized item by item, lines 67–73) together with the
optional decoded value. -/
structure AnalyzeResult where
  bands : List Band
  value_ohms : Option ℤ
deriving DecidableEq, Repr

/-- `analyze` after `findBands` has produced `bands` (`app.py`
lines 58–78). -/
def analyze (bands : List Band) : AnalyzeResult :=
  ⟨bands, value_ohms bands⟩

/-- The resistance printed by `displayResults` (`resit.py` lines
187–195), when one is printed: same arithmetic as `value_ohms`, except
that in the source the `int(strvalue)` there is unguarded (a parse
failure would raise instead of printing; either way no value is
produced, modelled as `none`). -/
def displayResultsValue (sortedbands : List Band) : Option ℤ :=
  if sortedbands.length = 3 ∨ sortedbands.length = 4 ∨ sortedbands.length = 5 then
    match sortedbands.getLast? with
    | none => none
    | some lastB =>
      match pyIntParse (digitsChars sortedbands) with
      | none => none
      | some base =>
        if 0 ≤ lastB.digit then some (base * 10 ^ lastB.digit.toNat) else none
  else none

/-! ## Band collection and sorting (`resit.py` lines 131–173)

The contour pipeline for one colour (mask, threshold, ROI, morphology,
`cv.findContours`, validity filter, leftmost point) is abstracted as a
function `detect` from the taxonomy entry to the list of leftmost points
of its valid contours, in contour order; `findBands` iterates the
taxonomy in order, appends `lmp + tuple(clr[2:])` per contour
(lines 141–162) and finally returns
`sorted(bandpos, key=lambda tup: tup[0])` (line 173).

Python's `sorted` is a stable sort by the key; a stable sort's output is
uniquely determined by sortedness, key-stability and being a
permutation, so the stable insertion sort below computes exactly the
same list. -/

/-- Stable insertion of `b` in front of the first element whose `x` is
not smaller. -/
def insertByX (b : Band) : List Band → List Band
  | [] => [b]
  | c :: cs => if b.x ≤ c.x then b :: c :: cs else c :: insertByX b cs

/-- Stable sort by the key `tup[0]`, i.e. `Band.x`. -/
def sortByX : List Band → List Band
  | [] => []
  | b :: bs => insertByX b (sortByX bs)

/-- `bandpos` as accumulated by the taxonomy loop of `findBands`
(lines 141–162): taxonomy order, contour order within a colour. -/
def collectBands (detect : ColorSpec → List (ℤ × ℤ)) : List Band :=
  (Colour_Range.map fun c =>
    (detect c).map fun p => Band.mk p.1 p.2 c.name c.digit c.display).flatten

/-- `findBands` return value (line 173). -/
def findBands (detect : ColorSpec → List (ℤ × ℤ)) : List Band :=
  sortByX (collectBands detect)

/-! ## Binary64 arithmetic for the resize scale (`resit.py` lines 63–68)

`_preprocess` computes
`scale = cfg.max_dim / float(max(h, w))` and resizes to
`(int(w * scale), int(h * scale))`.  Both float operations are correctly
rounded (IEEE 754 binary64, round to nearest, ties to even) and the
integer operands are exactly representable, so the computed dimensions
are determined by two applications of the rounding function on exact
rationals followed by truncation toward zero.

A positive double is `m·2^(k−52)` with mantissa `2⁵² ≤ m < 2⁵³`;
rounding a positive rational `a/b` first finds `k` with
`2^k ≤ a/b < 2^(k+1)` and then rounds `(a/b)·2^(52−k)` to the nearest
integer, ties to even (when the mantissa rounds up to `2⁵³` the value is
still the correctly rounded one).  Overflow and subnormals are ignored:
all quantities here are bounded by image dimensions.  Everything is kept
in `ℕ`/`ℤ` so the kernel can evaluate concrete instances. -/

/-- `⌊log₂ n⌋` with explicit fuel (the number itself suffices), so the
recursion is structural. -/
def natLog2F : ℕ → ℕ → ℕ
  | 0, _ => 0
  | fuel + 1, n => if n ≤ 1 then 0 else natLog2F fuel (n / 2) + 1

/-- `⌊log₂ n⌋` for `n ≥ 1`. -/
def natLog2 (n : ℕ) : ℕ := natLog2F n n

/-- `a/b < 2^k`, by cross-multiplication (no rationals). -/
def ltPow2 (a b : ℕ) : ℤ → Bool
  | .ofNat n => decide (a < b * 2 ^ n)
  | .negSucc n => decide (a * 2 ^ (n + 1) < b)

/-- Multiply the fraction `a/b` by `2^s`, keeping numerator and
denominator natural. -/
def shiftPair (a b : ℕ) : ℤ → ℕ × ℕ
  | .ofNat n => (a * 2 ^ n, b)
  | .negSucc n => (a, b * 2 ^ (n + 1))

/-- Round `a/b` (`b > 0`) to the nearest integer, ties to even. -/
def rheNat (a b : ℕ) : ℕ :=
  let f := a / b
  let r := a % b
  if 2 * r < b then f
  else if b < 2 * r then f + 1
  else if f % 2 = 0 then f else f + 1

/-- The binade of `a/b` (`a, b ≥ 1`): the `k` with
`2^k ≤ a/b < 2^(k+1)`. -/
def pairExp2 (a b : ℕ) : ℤ :=
  let k0 : ℤ := (natLog2 a : ℤ) - (natLog2 b : ℤ)
  if ltPow2 a b k0 then k0 - 1 else k0

/-- Round the positive rational `a/b` to the nearest binary64, returned
as mantissa and exponent: the value is `m·2^e`. -/
def rnd64Pos (a b : ℕ) : ℕ × ℤ :=
  let k := pairExp2 a b
  let s := shiftPair a b (52 - k)
  (rheNat s.1 s.2, k - 52)

/-- Round `n/d` (`d > 0`) to the nearest binary64, as a signed mantissa
and an exponent. -/
def rnd64 (n : ℤ) (d : ℕ) : ℤ × ℤ :=
  match n with
  | .ofNat a =>
    if a = 0 then (0, 0)
    else ((rnd64Pos a d).1, (rnd64Pos a d).2)
  | .negSucc a => (-((rnd64Pos (a + 1) d).1 : ℤ), (rnd64Pos (a + 1) d).2)

/-- The float product `w · (m·2^e)` with `w : ℕ` exactly representable:
correctly rounded, i.e. the rounding of the exact product. -/
def rnd64Mul (w : ℕ) (m e : ℤ) : ℤ × ℤ :=
  match e with
  | .ofNat n => rnd64 ((w : ℤ) * m * 2 ^ n) 1
  | .negSucc n => rnd64 ((w : ℤ) * m) (2 ^ (n + 1))

/-- Python `int(·)` applied to the double `m·2^e`: truncation toward
zero. -/
def truncDyadic (m e : ℤ) : ℤ :=
  match e with
  | .ofNat n => m * 2 ^ n
  | .negSucc n => m.sign * ((m.natAbs / 2 ^ (n + 1) : ℕ) : ℤ)

/-- The image dimensions `(height, width)` after the resize step of
`_preprocess` (`resit.py` lines 63–68):

    if cfg.max_dim and max(h, w) > cfg.max_dim:
        scale = cfg.max_dim / float(max(h, w))
        img = cv.resize(img, (int(w*scale), int(h*scale)),
                        interpolation=cv.INTER_AREA)

Note the guard is Python truthiness (`max_dim ≠ 0`), not `max_dim > 0`.
`cv.resize`'s size argument is `(width, height)`, so the resized image
has height `int(h*scale)` and width `int(w*scale)`. -/
def preprocessDims (h w : ℕ) (cfg : Config) : ℤ × ℤ :=
  if cfg.max_dim ≠ 0 ∧ cfg.max_dim < (max h w : ℤ) then
    let scale := rnd64 cfg.max_dim (max h w)
    let nh := rnd64Mul h scale.1 scale.2
    let nw := rnd64Mul w scale.1 scale.2
    (truncDyadic nh.1 nh.2, truncDyadic nw.1 nw.2)
  else ((h : ℤ), (w : ℤ))

/-- The interpolation mode used by the resize branch (`cv.INTER_AREA`,
area-averaging). -/
def resizeInterpolation : String := "INTER_AREA"

/-! ## `_estimate_min_area` (`resit.py` lines 56–60)

`int(0.0005 * h * w)` is computed by the source in binary64,
left-associatively: the literal `0.0005` is the double nearest `1/2000`
(i.e. the rounding of `1/2000`), it is multiplied by the exact integer
`h`, that product is rounded, multiplied by the exact integer `w`,
rounded again, and truncated by `int`.  The two intermediate roundings
matter: e.g. `int(0.0005*145*800)` is 57 in CPython
(`57.99999999999999`), one below the exact `⌊145·800/2000⌋ = 58`. -/

/-- `int(0.0005 * h * w)` (`resit.py` line 60), binary64 step by step:
round `1/2000` (the literal), multiply by `h` and round, multiply by `w`
and round, truncate toward zero.  Exact for every `h`, `w` below `2⁵³`
(integers exactly representable, each operation correctly rounded). -/
def pyMinAreaFloat (h w : ℕ) : ℤ :=
  let c := rnd64 1 2000
  let p1 := rnd64Mul h c.1 c.2
  let p2 := rnd64Mul w p1.1 p1.2
  truncDyadic p2.1 p2.2

/-- `_estimate_min_area` (`resit.py` lines 56–60): the configured
`min_area` when positive, else `max(50, int(0.0005 * h * w))`. -/
def _estimate_min_area (h w : ℕ) (cfg : Config) : ℤ :=
  if 0 < cfg.min_area then cfg.min_area
  else max 50 (pyMinAreaFloat h w)

/-! ## C3: taxonomy invariants -/

/-- **C3**: the static colour taxonomy has exactly ten entries, their
digits are 0–9 each exactly once, and the secondary (wrap-around) red
hue range is disjoint from the primary red range: no HSV pixel lies in
both. -/
theorem taxonomy_invariant :
    Colour_Range.length = 10 ∧
    ((List.range 10).all fun d =>
      (Colour_Range.map fun c => c.digit).count (d : ℤ) == 1) = true ∧
    ∀ p : ℕ × ℕ × ℕ,
      (inRangeB redSpec.lo redSpec.hi p && inRangeB Red_top_low Red_top_high p) = false := by
  refine ⟨by decide, by decide, ?_⟩
  rintro ⟨hh, s, v⟩
  simp only [inRangeB, redSpec, Red_top_low, Red_top_high, Bool.and_eq_false_iff,
    decide_eq_false_iff_not]
  omega

/-! ## C10: kernel-size coercion safety -/

/-- An odd integer stays odd under `max 3`. -/
theorem max3_odd_ge3 (x : ℤ) (hx : x % 2 = 1) : Odd (max 3 x) ∧ 3 ≤ max 3 x := by
  rcases le_total 3 x with h | h
  · rw [max_eq_right h]
    exact ⟨Int.odd_iff.mpr hx, h⟩
  · rw [max_eq_left h]
    exact ⟨⟨1, by norm_num⟩, le_refl _⟩

/-- `pyOrOne` always yields an odd integer. -/
theorem pyOrOne_odd (n : ℤ) : pyOrOne n % 2 = 1 := by
  unfold pyOrOne
  split <;> omega

/-- **C10**: for every integer `gaussian_ksize` and `adaptive_block_size`
— even, below 3, or negative — `_preprocess` coerces the size to
`max(3, size | 1)`, which is always an odd integer ≥ 3, before invoking
the Gaussian blur or the adaptive threshold. -/
theorem kernel_sizes_odd_ge3 (cfg : Config) :
    gaussianKernelSize cfg = max 3 (pyOrOne cfg.gaussian_ksize) ∧
    Odd (gaussianKernelSize cfg) ∧ 3 ≤ gaussianKernelSize cfg ∧
    adaptiveBlockSize cfg = max 3 (pyOrOne cfg.adaptive_block_size) ∧
    Odd (adaptiveBlockSize cfg) ∧ 3 ≤ adaptiveBlockSize cfg := by
  obtain ⟨h1, h2⟩ := max3_odd_ge3 (pyOrOne cfg.gaussian_ksize) (pyOrOne_odd _)
  obtain ⟨h3, h4⟩ := max3_odd_ge3 (pyOrOne cfg.adaptive_block_size) (pyOrOne_odd _)
  exact ⟨rfl, h1, h2, rfl, h3, h4⟩

/-! ## C6: ROI closing kernel (corrected)

The claim says the closing uses a structuring element of exactly
`morphKernelSize × morphKernelSize` for every configured value ≥ 1, but
`_resistor_roi_mask` computes `k = max(3, cfg.morph_kernel)`
(`resit.py` line 95): for `morph_kernel ∈ {1, 2}` the element is 3×3. -/

/-- **C6** counterexample: `morph_kernel = 1` satisfies the claim's
premise (≥ 1), yet the closing kernel side is 3, not 1. -/
theorem roiClosing_cex :
    (1 : ℤ) ≥ 1 ∧ (roiClosingOp {morph_kernel := 1}).size = 3 ∧ (3 : ℤ) ≠ 1 := by
  decide

/-- **C6** amended: the closing runs for two iterations with a square
structuring element of side `max(3, morphKernelSize)`; in particular the
side is exactly `morphKernelSize` whenever `morphKernelSize ≥ 3`. -/
theorem roiClosing_amended (cfg : Config) :
    (roiClosingOp cfg).size = max 3 cfg.morph_kernel ∧
    (roiClosingOp cfg).iterations = 2 ∧
    (3 ≤ cfg.morph_kernel → (roiClosingOp cfg).size = cfg.morph_kernel) := by
  refine ⟨rfl, rfl, fun h => ?_⟩
  simp only [roiClosingOp]
  omega

theorem roiClosing_amended_witness :
    (3 : ℤ) ≤ 5 ∧ (roiClosingOp {morph_kernel := 5}).size = 5 :=
  ⟨by decide, (roiClosing_amended {morph_kernel := 5}).2.2 (by decide)⟩

/-! ## C8: red wrap-around mask -/

/-- **C8**: the RED colour mask is the union of the primary and the
secondary (wrap-around) range masks — so a pixel inside the secondary
range but outside the primary one is still RED — while every other
taxonomy entry is matched against its single range only. -/
theorem red_wraparound (p : ℕ × ℕ × ℕ) :
    colourMaskB redSpec p
      = (inRangeB redSpec.lo redSpec.hi p || inRangeB Red_top_low Red_top_high p) ∧
    (∀ c ∈ Colour_Range, c.name ≠ "RED" → colourMaskB c p = inRangeB c.lo c.hi p) ∧
    (inRangeB Red_top_low Red_top_high p = true →
      inRangeB redSpec.lo redSpec.hi p = false → colourMaskB redSpec p = true) := by
  have e : colourMaskB redSpec p
      = (inRangeB Red_top_low Red_top_high p || inRangeB redSpec.lo redSpec.hi p) := rfl
  refine ⟨?_, fun c _ hc => ?_, fun h1 _ => ?_⟩
  · rw [e, Bool.or_comm]
  · simp only [colourMaskB, if_neg hc]
  · rw [e, h1, Bool.true_or]

theorem red_wraparound_witness :
    inRangeB Red_top_low Red_top_high (170, 100, 100) = true ∧
    inRangeB redSpec.lo redSpec.hi (170, 100, 100) = false ∧
    colourMaskB redSpec (170, 100, 100) = true :=
  ⟨by decide, by decide,
    (red_wraparound (170, 100, 100)).2.2 (by decide) (by decide)⟩

/-! ## C4: non-standard band count -/

/-- **C4**: whenever the detected band count is not 3, 4 or 5 (zero
included), `analyze` still returns the full band list and the resistance
value is absent. -/
theorem analyze_nonstandard_count (bands : List Band)
    (hn : ¬(bands.length = 3 ∨ bands.length = 4 ∨ bands.length = 5)) :
    analyze bands = ⟨bands, none⟩ := by
  unfold analyze value_ohms
  rw [if_neg hn]

theorem analyze_nonstandard_count_witness :
    analyze [Band.mk 10 5 "RED" 2 (0, 0, 255), Band.mk 20 5 "BLACK" 0 (0, 0, 0)]
      = ⟨[Band.mk 10 5 "RED" 2 (0, 0, 255), Band.mk 20 5 "BLACK" 0 (0, 0, 0)], none⟩ :=
  analyze_nonstandard_count _ (by decide)

/-! ## C7: guarded digit parse -/

/-- **C7**: if parsing the concatenated digit string fails, `analyze`
does not abort — the `try/except` guard leaves the resistance absent and
the band list is still returned. -/
theorem analyze_parse_guard (bands : List Band)
    (hp : pyIntParse (digitsChars bands) = none) :
    analyze bands = ⟨bands, none⟩ := by
  unfold analyze value_ohms
  split_ifs with h
  · cases hl : bands.getLast? with
    | none => rfl
    | some lastB => rw [hp]
  · rfl

theorem analyze_parse_guard_witness :
    pyIntParse (digitsChars
      [Band.mk 0 0 "RED" 2 (0, 0, 255), Band.mk 1 0 "BAD" (-1) (0, 0, 0),
        Band.mk 2 0 "BLACK" 0 (0, 0, 0)]) = none ∧
    analyze
      [Band.mk 0 0 "RED" 2 (0, 0, 255), Band.mk 1 0 "BAD" (-1) (0, 0, 0),
        Band.mk 2 0 "BLACK" 0 (0, 0, 0)]
      = ⟨[Band.mk 0 0 "RED" 2 (0, 0, 255), Band.mk 1 0 "BAD" (-1) (0, 0, 0),
          Band.mk 2 0 "BLACK" 0 (0, 0, 0)], none⟩ :=
  ⟨by decide, analyze_parse_guard _ (by decide)⟩

/-! ## C1: decoding correctness -/

theorem digitVal_digitChar (d : ℕ) (hd : d ≤ 9) : digitVal (digitChar d) = some d := by
  interval_cases d <;> decide

theorem natToChars_digit (d : ℕ) (hd : d ≤ 9) : natToChars d = [digitChar d] := by
  simp only [natToChars, natToCharsF]
  rw [if_pos (by omega)]

theorem pyStr_digit (d : ℤ) (h0 : 0 ≤ d) (h9 : d ≤ 9) :
    pyStr d = [digitChar d.toNat] := by
  unfold pyStr
  rw [if_neg (not_lt.mpr h0), show d.natAbs = d.toNat by omega]
  exact natToChars_digit _ (by omega)

theorem flatten_map_singleton {α β : Type} (f : α → β) (l : List α) :
    (l.map fun a => [f a]).flatten = l.map f := by
  induction l with
  | nil => rfl
  | cons a l ih => simp [ih]

theorem parseDigitsAux_map (ds : List ℕ) (acc : ℕ) (h : ∀ d ∈ ds, d ≤ 9) :
    parseDigitsAux acc (ds.map digitChar)
      = some (ds.foldl (fun a d => 10 * a + d) acc) := by
  induction ds generalizing acc with
  | nil => rfl
  | cons d ds ih =>
    simp only [List.map_cons, parseDigitsAux,
      digitVal_digitChar d (h d (by simp)), List.foldl_cons]
    exact ih _ fun x hx => h x (by simp [hx])

theorem parseDigits_map (d : ℕ) (ds : List ℕ) (h : ∀ x ∈ d :: ds, x ≤ 9) :
    parseDigits ((d :: ds).map digitChar)
      = some ((d :: ds).foldl (fun a x => 10 * a + x) 0) := by
  simp only [List.map_cons, parseDigits,
    digitVal_digitChar d (h d (by simp)), List.foldl_cons]
  rw [parseDigitsAux_map ds d fun x hx => h x (by simp [hx])]
  norm_num

theorem pyIntParse_digits (d : ℕ) (ds : List ℕ) (h : ∀ x ∈ d :: ds, x ≤ 9) :
    pyIntParse ((d :: ds).map digitChar)
      = some (((d :: ds).foldl (fun a x => 10 * a + x) 0 : ℕ) : ℤ) := by
  have hd := h d (by simp)
  have hne1 : ¬(digitChar d = '-') := by interval_cases d <;> decide
  have hne2 : ¬(digitChar d = '+') := by interval_cases d <;> decide
  simp only [List.map_cons, pyIntParse, if_neg hne1, if_neg hne2]
  rw [show digitChar d :: ds.map digitChar = (d :: ds).map digitChar from rfl,
    parseDigits_map d ds h]
  rfl

theorem foldl_digits_cast (front : List Band) (acc : ℕ)
    (h : ∀ b ∈ front, 0 ≤ b.digit ∧ b.digit ≤ 9) :
    (((front.map fun b => b.digit.toNat).foldl (fun a x => 10 * a + x) acc : ℕ) : ℤ)
      = front.foldl (fun a b => 10 * a + b.digit) (acc : ℤ) := by
  induction front generalizing acc with
  | nil => rfl
  | cons b l ih =>
    simp only [List.map_cons, List.foldl_cons]
    rw [ih _ fun x hx => h x (by simp [hx])]
    congr 1
    have h0 := (h b (by simp)).1
    push_cast
    omega

/-- The concatenated digit string of a nonempty run of in-range bands
parses back to the decimal number their digits spell. -/
theorem parse_digit_string (front : List Band) (hne : front ≠ [])
    (hd : ∀ b ∈ front, 0 ≤ b.digit ∧ b.digit ≤ 9) :
    pyIntParse ((front.map fun b => pyStr b.digit).flatten)
      = some (front.foldl (fun a b => 10 * a + b.digit) 0) := by
  have h1 : (front.map fun b => pyStr b.digit)
      = front.map fun b => [digitChar b.digit.toNat] :=
    List.map_congr_left fun b hb => pyStr_digit _ (hd b hb).1 (hd b hb).2
  have h2 : front.map (fun b => digitChar b.digit.toNat)
      = (front.map fun b => b.digit.toNat).map digitChar := by
    rw [List.map_map]
    rfl
  rw [h1, flatten_map_singleton, h2]
  obtain ⟨b, l, rfl⟩ : ∃ b l, front = b :: l := by
    cases front with
    | nil => exact absurd rfl hne
    | cons b l => exact ⟨b, l, rfl⟩
  have hds : ∀ x ∈ b.digit.toNat :: l.map (fun c => c.digit.toNat), x ≤ 9 := by
    intro x hx
    rcases List.mem_cons.mp hx with rfl | hx
    · have := hd b (by simp)
      omega
    · obtain ⟨c, hc, rfl⟩ := List.mem_map.mp hx
      have := hd c (by simp [hc])
      omega
  rw [show (b :: l).map (fun c => c.digit.toNat)
      = b.digit.toNat :: l.map (fun c => c.digit.toNat) from rfl,
    pyIntParse_digits _ _ hds,
    show b.digit.toNat :: l.map (fun c => c.digit.toNat)
      = (b :: l).map (fun c => c.digit.toNat) from rfl,
    foldl_digits_cast (b :: l) 0 hd]
  norm_num

/-- **C1**: for every band list of length 3, 4 or 5 (written as
`front ++ [lastB]`) whose digits are in 0–9, the decoded resistance is
the decimal integer the leading digits spell (leftmost most significant)
times `10 ^` the last band's digit — both in `analyze`'s `value_ohms`
and in the value printed by `displayResults`. -/
theorem decode_value (front : List Band) (lastB : Band)
    (hlen : front.length = 2 ∨ front.length = 3 ∨ front.length = 4)
    (hd : ∀ b ∈ front, 0 ≤ b.digit ∧ b.digit ≤ 9)
    (hl : 0 ≤ lastB.digit) :
    value_ohms (front ++ [lastB])
      = some ((front.foldl (fun a b => 10 * a + b.digit) 0) * 10 ^ lastB.digit.toNat) ∧
    displayResultsValue (front ++ [lastB])
      = some ((front.foldl (fun a b => 10 * a + b.digit) 0) * 10 ^ lastB.digit.toNat) := by
  have hsame : displayResultsValue (front ++ [lastB]) = value_ohms (front ++ [lastB]) := rfl
  have hne : front ≠ [] := by
    intro hnil
    rw [hnil] at hlen
    simp at hlen
  have hparse : pyIntParse (digitsChars (front ++ [lastB]))
      = some (front.foldl (fun a b => 10 * a + b.digit) 0) := by
    unfold digitsChars
    rw [List.dropLast_concat]
    exact parse_digit_string front hne hd
  have hcount : (front ++ [lastB]).length = 3 ∨ (front ++ [lastB]).length = 4 ∨
      (front ++ [lastB]).length = 5 := by
    simp only [List.length_append, List.length_cons, List.length_nil]
    omega
  rw [hsame, and_self]
  unfold value_ohms
  rw [if_pos hcount, List.getLast?_concat, hparse]
  simp only [if_pos hl]

theorem decode_value_witness :
    value_ohms
      [Band.mk 10 0 "RED" 2 (0, 0, 255), Band.mk 20 0 "RED" 2 (0, 0, 255),
        Band.mk 30 0 "BLACK" 0 (0, 0, 0), Band.mk 40 0 "ORANGE" 3 (0, 128, 255)]
      = some 220000 := by
  have h := (decode_value
    [Band.mk 10 0 "RED" 2 (0, 0, 255), Band.mk 20 0 "RED" 2 (0, 0, 255),
      Band.mk 30 0 "BLACK" 0 (0, 0, 0)]
    (Band.mk 40 0 "ORANGE" 3 (0, 128, 255))
    (by decide) (by decide) (by decide)).1
  exact h.trans (by decide)

/-! ## C2: ordering and stability of `findBands` -/

theorem mem_insertByX (b y : Band) (l : List Band) :
    y ∈ insertByX b l ↔ y = b ∨ y ∈ l := by
  induction l with
  | nil => simp [insertByX]
  | cons c cs ih =>
    simp only [insertByX]
    split
    · simp [List.mem_cons]
    · simp only [List.mem_cons, ih]
      tauto

theorem pairwise_insertByX (b : Band) (l : List Band)
    (h : l.Pairwise fun a c => a.x ≤ c.x) :
    (insertByX b l).Pairwise fun a c => a.x ≤ c.x := by
  induction l with
  | nil => simp [insertByX]
  | cons c cs ih =>
    obtain ⟨hc, hcs⟩ := List.pairwise_cons.mp h
    simp only [insertByX]
    split
    · next hbc =>
      refine List.pairwise_cons.mpr ⟨?_, h⟩
      intro y hy
      rcases List.mem_cons.mp hy with rfl | hy'
      · exact hbc
      · exact hbc.trans (hc y hy')
    · next hbc =>
      refine List.pairwise_cons.mpr ⟨?_, ih hcs⟩
      intro y hy
      rcases (mem_insertByX b y cs).mp hy with rfl | hy'
      · exact le_of_lt (not_le.mp hbc)
      · exact hc y hy'

theorem perm_insertByX (b : Band) (l : List Band) :
    (insertByX b l).Perm (b :: l) := by
  induction l with
  | nil => exact List.Perm.refl _
  | cons c cs ih =>
    simp only [insertByX]
    split
    · exact List.Perm.refl _
    · exact (ih.cons c).trans (List.Perm.swap b c cs)

theorem filter_insertByX (b : Band) (l : List Band) (k : ℤ) :
    (insertByX b l).filter (fun c => c.x == k)
      = if b.x = k then b :: l.filter (fun c => c.x == k)
        else l.filter (fun c => c.x == k) := by
  induction l with
  | nil => by_cases hb : b.x = k <;> simp [insertByX, List.filter_cons, hb]
  | cons c cs ih =>
    simp only [insertByX]
    split
    · next hbc => by_cases hb : b.x = k <;> simp [List.filter_cons, hb]
    · next hbc =>
      have hcb : c.x < b.x := not_le.mp hbc
      by_cases hb : b.x = k
      · have hck : ¬(c.x = k) := by omega
        simp [List.filter_cons, hck, ih, hb]
      · simp [List.filter_cons, ih, hb]

theorem sortByX_pairwise (l : List Band) :
    (sortByX l).Pairwise fun a c => a.x ≤ c.x := by
  induction l with
  | nil => simp [sortByX]
  | cons b bs ih => exact pairwise_insertByX b _ ih

theorem sortByX_perm (l : List Band) : (sortByX l).Perm l := by
  induction l with
  | nil => exact List.Perm.refl _
  | cons b bs ih => exact (perm_insertByX b _).trans (ih.cons b)

theorem sortByX_filter (l : List Band) (k : ℤ) :
    (sortByX l).filter (fun c => c.x == k) = l.filter (fun c => c.x == k) := by
  induction l with
  | nil => rfl
  | cons b bs ih =>
    simp only [sortByX]
    rw [filter_insertByX]
    by_cases hb : b.x = k <;> simp [List.filter_cons, hb, ih]

/-- **C2**: `findBands` returns the candidates sorted by non-decreasing
x-coordinate, and the sort is stable: it is a permutation of the
collection order (taxonomy order, then contour order within a colour),
and for every key the bands with that x-coordinate appear exactly in
their original detection order. -/
theorem findBands_sorted_stable (detect : ColorSpec → List (ℤ × ℤ)) :
    (findBands detect).Pairwise (fun a c => a.x ≤ c.x) ∧
    (findBands detect).Perm (collectBands detect) ∧
    ∀ k : ℤ, (findBands detect).filter (fun c => c.x == k)
      = (collectBands detect).filter (fun c => c.x == k) :=
  ⟨sortByX_pairwise _, sortByX_perm _, fun k => sortByX_filter _ k⟩

/-! ## C9: the resize step of `_preprocess` (corrected)

The claim says the longer side becomes exactly `maxDimension`.  In exact
rational arithmetic it would; in the source's binary64 arithmetic
`int(w * (max_dim / float(w)))` can truncate to `maxDimension - 1`
(e.g. `int(1129 * (900/1129.0)) = 899`).  The lemmas below establish
that the model's rounding has relative error at most `2⁻⁵³` per
operation, which bounds the longer side to `{maxDimension-1,
maxDimension}`; the counterexample shows `maxDimension-1` is attained. -/

theorem natLog2F_spec (fuel : ℕ) : ∀ n : ℕ, 1 ≤ n → n ≤ fuel →
    2 ^ natLog2F fuel n ≤ n ∧ n < 2 ^ (natLog2F fuel n + 1) := by
  induction fuel with
  | zero => intro n h1 h2; exact absurd (h1.trans h2) (by decide)
  | succ fuel ih =>
    intro n h1 h2
    simp only [natLog2F]
    split
    · next hle =>
      have hn : n = 1 := by omega
      subst hn
      decide
    · next hgt =>
      have hn2 : 2 ≤ n := by omega
      obtain ⟨hk1, hk2⟩ := ih (n / 2) (by omega) (by omega)
      have e1 : (2:ℕ) ^ (natLog2F fuel (n / 2) + 1) = 2 * 2 ^ natLog2F fuel (n / 2) := by
        rw [pow_succ]
        ring
      have e2 : (2:ℕ) ^ (natLog2F fuel (n / 2) + 1 + 1)
          = 2 * 2 ^ (natLog2F fuel (n / 2) + 1) := by
        rw [pow_succ]
        ring
      omega

theorem natLog2_spec (n : ℕ) (h : 1 ≤ n) :
    2 ^ natLog2 n ≤ n ∧ n < 2 ^ (natLog2 n + 1) :=
  natLog2F_spec n n h le_rfl

theorem cast_pow2 (m : ℕ) : ((2 ^ m : ℕ) : ℚ) = (2:ℚ) ^ (m : ℤ) := by
  push_cast
  rw [zpow_natCast]

theorem ltPow2_iff (a b : ℕ) (k : ℤ) (hb : 0 < b) :
    ltPow2 a b k = true ↔ (a : ℚ) < (b : ℚ) * (2:ℚ) ^ k := by
  cases k with
  | ofNat n =>
    simp only [ltPow2, decide_eq_true_eq]
    rw [show ((b:ℚ) * (2:ℚ) ^ (Int.ofNat n)) = ((b * 2 ^ n : ℕ) : ℚ) from by
      rw [Int.ofNat_eq_natCast, zpow_natCast]
      push_cast
      ring]
    exact Nat.cast_lt.symm
  | negSucc n =>
    simp only [ltPow2, decide_eq_true_eq]
    rw [zpow_negSucc,
      show ((b:ℚ) * ((2:ℚ) ^ (n + 1))⁻¹) = (b:ℚ) / (2:ℚ) ^ (n + 1) from by ring,
      lt_div_iff (by positivity),
      show ((a:ℚ) * (2:ℚ) ^ (n + 1)) = ((a * 2 ^ (n + 1) : ℕ) : ℚ) from by
        push_cast
        ring]
    exact Nat.cast_lt.symm

theorem shiftPair_spec (a b : ℕ) (s : ℤ) (hb : 0 < b) :
    ((shiftPair a b s).1 : ℚ) / ((shiftPair a b s).2 : ℚ)
        = ((a:ℚ) / b) * (2:ℚ) ^ s ∧
    0 < (shiftPair a b s).2 := by
  cases s with
  | ofNat n =>
    refine ⟨?_, hb⟩
    simp only [shiftPair]
    rw [Int.ofNat_eq_natCast, zpow_natCast]
    push_cast
    ring
  | negSucc n =>
    refine ⟨?_, ?_⟩
    · simp only [shiftPair]
      rw [zpow_negSucc]
      push_cast
      ring
    · show 0 < b * 2 ^ (n + 1)
      exact mul_pos hb (by positivity)

theorem rheNat_spec (a b : ℕ) (hb : 0 < b) :
    |(rheNat a b : ℚ) - (a : ℚ) / b| ≤ 1 / 2 := by
  have hb' : (0:ℚ) < b := by exact_mod_cast hb
  have hlt : a % b < b := Nat.mod_lt _ hb
  have hq : (a:ℚ) / b = ((a / b : ℕ) : ℚ) + ((a % b : ℕ) : ℚ) / b := by
    have hnat : ((a : ℚ)) = ((a / b : ℕ) : ℚ) * (b:ℚ) + ((a % b : ℕ) : ℚ) := by
      have hdm : a / b * b + a % b = a := by
        rw [mul_comm]
        exact Nat.div_add_mod a b
      exact_mod_cast hdm.symm
    rw [hnat, add_div, mul_div_cancel_right₀ _ hb'.ne']
  have hr0 : (0:ℚ) ≤ ((a % b : ℕ) : ℚ) / b := by positivity
  simp only [rheNat]
  split_ifs with h1 h2 h3
  · have hrb : ((a % b : ℕ) : ℚ) / b ≤ 1 / 2 := by
      rw [div_le_iff hb']
      have : (2 * (a % b) : ℕ) ≤ (b : ℕ) := le_of_lt h1
      have h2r : 2 * ((a % b : ℕ) : ℚ) ≤ (b:ℚ) := by exact_mod_cast this
      linarith
    rw [hq, abs_le]
    constructor <;> linarith
  · have h2r : (b:ℚ) ≤ 2 * ((a % b : ℕ) : ℚ) := by exact_mod_cast le_of_lt h2
    have hrb : 1 / 2 ≤ ((a % b : ℕ) : ℚ) / b := by
      rw [le_div_iff hb']
      linarith
    have hrb1 : ((a % b : ℕ) : ℚ) / b ≤ 1 := by
      rw [div_le_one hb']
      exact_mod_cast le_of_lt hlt
    rw [hq, abs_le]
    push_cast
    constructor <;> linarith
  · have h2r : 2 * ((a % b : ℕ) : ℚ) = (b:ℚ) := by exact_mod_cast (by omega : 2 * (a % b) = b)
    have hrb : ((a % b : ℕ) : ℚ) / b = 1 / 2 := by
      rw [div_eq_iff hb'.ne']
      linarith
    rw [hq, hrb, abs_le]
    constructor <;> linarith
  · have h2r : 2 * ((a % b : ℕ) : ℚ) = (b:ℚ) := by exact_mod_cast (by omega : 2 * (a % b) = b)
    have hrb : ((a % b : ℕ) : ℚ) / b = 1 / 2 := by
      rw [div_eq_iff hb'.ne']
      linarith
    rw [hq, hrb, abs_le]
    push_cast
    constructor <;> linarith

theorem pairExp2_spec (a b : ℕ) (ha : 0 < a) (hb : 0 < b) :
    (2:ℚ) ^ pairExp2 a b ≤ (a : ℚ) / b ∧ (a : ℚ) / b < (2:ℚ) ^ (pairExp2 a b + 1) := by
  have hb' : (0:ℚ) < b := by exact_mod_cast hb
  have h2 : (2:ℚ) ≠ 0 := two_ne_zero
  obtain ⟨ha1, ha2⟩ := natLog2_spec a ha
  obtain ⟨hb1, hb2⟩ := natLog2_spec b hb
  have Ha1 : (2:ℚ) ^ ((natLog2 a : ℤ)) ≤ (a:ℚ) := by
    rw [← cast_pow2]
    exact_mod_cast ha1
  have Ha2 : (a:ℚ) < (2:ℚ) ^ ((natLog2 a : ℤ) + 1) := by
    rw [show ((natLog2 a : ℤ) + 1) = ((natLog2 a + 1 : ℕ) : ℤ) from by push_cast; ring,
      ← cast_pow2]
    exact_mod_cast ha2
  have Hb1 : (2:ℚ) ^ ((natLog2 b : ℤ)) ≤ (b:ℚ) := by
    rw [← cast_pow2]
    exact_mod_cast hb1
  have Hb2 : (b:ℚ) < (2:ℚ) ^ ((natLog2 b : ℤ) + 1) := by
    rw [show ((natLog2 b : ℤ) + 1) = ((natLog2 b + 1 : ℕ) : ℤ) from by push_cast; ring,
      ← cast_pow2]
    exact_mod_cast hb2
  simp only [pairExp2]
  split_ifs with hlt
  · have hub : (a:ℚ) < (b:ℚ) * (2:ℚ) ^ ((natLog2 a : ℤ) - natLog2 b) :=
      (ltPow2_iff a b _ hb).mp hlt
    constructor
    · rw [le_div_iff hb']
      have hstep : (2:ℚ) ^ ((natLog2 a : ℤ) - natLog2 b - 1) * (b:ℚ)
          < (2:ℚ) ^ ((natLog2 a : ℤ) - natLog2 b - 1) * (2:ℚ) ^ ((natLog2 b : ℤ) + 1) :=
        mul_lt_mul_of_pos_left Hb2 (by positivity)
      have hcollapse : (2:ℚ) ^ ((natLog2 a : ℤ) - natLog2 b - 1) * (2:ℚ) ^ ((natLog2 b : ℤ) + 1)
          = (2:ℚ) ^ ((natLog2 a : ℤ)) := by
        rw [← zpow_add₀ h2]
        congr 1
        ring
      linarith
    · rw [div_lt_iff hb', show ((natLog2 a : ℤ) - natLog2 b - 1 + 1)
        = ((natLog2 a : ℤ) - natLog2 b) from by ring]
      linarith
  · have hge : (b:ℚ) * (2:ℚ) ^ ((natLog2 a : ℤ) - natLog2 b) ≤ (a:ℚ) :=
      not_lt.mp fun hc => hlt ((ltPow2_iff a b _ hb).mpr hc)
    constructor
    · rw [le_div_iff hb']
      linarith
    · rw [div_lt_iff hb']
      have hsplit : (2:ℚ) ^ ((natLog2 a : ℤ) + 1)
          = (2:ℚ) ^ ((natLog2 a : ℤ) - natLog2 b + 1) * (2:ℚ) ^ ((natLog2 b : ℤ)) := by
        rw [← zpow_add₀ h2]
        congr 1
        ring
      have hmono : (2:ℚ) ^ ((natLog2 a : ℤ) - natLog2 b + 1) * (2:ℚ) ^ ((natLog2 b : ℤ))
          ≤ (2:ℚ) ^ ((natLog2 a : ℤ) - natLog2 b + 1) * (b:ℚ) :=
        mul_le_mul_of_nonneg_left Hb1 (by positivity)
      linarith

theorem rnd64Pos_eq (a b : ℕ) :
    rnd64Pos a b = (rheNat (shiftPair a b (52 - pairExp2 a b)).1
      (shiftPair a b (52 - pairExp2 a b)).2, pairExp2 a b - 52) := rfl

theorem rnd64Pos_spec (a b : ℕ) (ha : 0 < a) (hb : 0 < b) :
    |((rnd64Pos a b).1 : ℚ) * (2:ℚ) ^ (rnd64Pos a b).2 - (a:ℚ) / b|
      ≤ ((a:ℚ) / b) * (2:ℚ) ^ (-53 : ℤ) := by
  have h2 : (2:ℚ) ≠ 0 := two_ne_zero
  obtain ⟨hq1, hq2⟩ := pairExp2_spec a b ha hb
  obtain ⟨hs, hspos⟩ := shiftPair_spec a b (52 - pairExp2 a b) hb
  have hrhe := rheNat_spec (shiftPair a b (52 - pairExp2 a b)).1
    (shiftPair a b (52 - pairExp2 a b)).2 hspos
  rw [rnd64Pos_eq]
  have key : ((rheNat (shiftPair a b (52 - pairExp2 a b)).1
        (shiftPair a b (52 - pairExp2 a b)).2 : ℚ)) * (2:ℚ) ^ (pairExp2 a b - 52)
        - (a:ℚ) / b
      = ((rheNat (shiftPair a b (52 - pairExp2 a b)).1
          (shiftPair a b (52 - pairExp2 a b)).2 : ℚ)
        - ((shiftPair a b (52 - pairExp2 a b)).1 : ℚ)
            / ((shiftPair a b (52 - pairExp2 a b)).2 : ℚ))
        * (2:ℚ) ^ (pairExp2 a b - 52) := by
    rw [hs, sub_mul, mul_assoc, ← zpow_add₀ h2]
    norm_num
  rw [key, abs_mul, abs_of_pos (show (0:ℚ) < (2:ℚ) ^ (pairExp2 a b - 52) from by positivity)]
  have hb1 : |((rheNat (shiftPair a b (52 - pairExp2 a b)).1
        (shiftPair a b (52 - pairExp2 a b)).2 : ℚ)
        - ((shiftPair a b (52 - pairExp2 a b)).1 : ℚ)
            / ((shiftPair a b (52 - pairExp2 a b)).2 : ℚ))|
        * (2:ℚ) ^ (pairExp2 a b - 52)
      ≤ (1 / 2) * (2:ℚ) ^ (pairExp2 a b - 52) :=
    mul_le_mul_of_nonneg_right hrhe (by positivity)
  have hb2 : (1 / 2 : ℚ) * (2:ℚ) ^ (pairExp2 a b - 52) = (2:ℚ) ^ (pairExp2 a b - 53) := by
    rw [show (1 / 2 : ℚ) = (2:ℚ) ^ (-1 : ℤ) from by norm_num, ← zpow_add₀ h2]
    congr 1
    ring
  have hb3 : (2:ℚ) ^ (pairExp2 a b - 53) ≤ ((a:ℚ) / b) * (2:ℚ) ^ (-53 : ℤ) := by
    rw [show pairExp2 a b - 53 = pairExp2 a b + (-53) from by ring, zpow_add₀ h2]
    exact mul_le_mul_of_nonneg_right hq1 (by positivity)
  linarith

theorem rnd64Pos_pos (a b : ℕ) (ha : 0 < a) (hb : 0 < b) : 0 < (rnd64Pos a b).1 := by
  have hspec := rnd64Pos_spec a b ha hb
  have hq : (0:ℚ) < (a:ℚ) / b := by positivity
  by_contra hm
  have hm0 : (rnd64Pos a b).1 = 0 := by omega
  rw [hm0] at hspec
  simp only [Nat.cast_zero, zero_mul, zero_sub, abs_neg, abs_of_pos hq] at hspec
  have hlt : ((a:ℚ) / b) * (2:ℚ) ^ (-53 : ℤ) < ((a:ℚ) / b) * 1 := by
    apply mul_lt_mul_of_pos_left _ hq
    rw [show (2:ℚ) ^ (-53 : ℤ) = ((2:ℚ) ^ (53:ℕ))⁻¹ from by
      rw [zpow_neg]
      norm_num]
    norm_num
  linarith

theorem rnd64_pos_eq (n : ℤ) (hn : 0 < n) (d : ℕ) :
    rnd64 n d = (((rnd64Pos n.toNat d).1 : ℤ), (rnd64Pos n.toNat d).2) := by
  cases n with
  | ofNat a =>
    cases a with
    | zero => exact absurd hn (by decide)
    | succ a => rfl
  | negSucc a => exact absurd hn (not_lt.mpr (Int.negSucc_lt_zero a).le)

theorem rnd64_spec (n : ℤ) (d : ℕ) (hn : 0 < n) (hd : 0 < d) :
    |((rnd64 n d).1 : ℚ) * (2:ℚ) ^ (rnd64 n d).2 - (n:ℚ) / d|
        ≤ ((n:ℚ) / d) * (2:ℚ) ^ (-53 : ℤ) ∧
    0 < (rnd64 n d).1 := by
  rw [rnd64_pos_eq n hn d]
  have hcast : ((n.toNat : ℕ) : ℚ) = (n:ℚ) := by
    exact_mod_cast congrArg (fun z : ℤ => (z : ℚ)) (Int.toNat_of_nonneg hn.le)
  have hspec := rnd64Pos_spec n.toNat d (by omega) hd
  have hpos := rnd64Pos_pos n.toNat d (by omega) hd
  rw [hcast] at hspec
  exact ⟨hspec, show (0:ℤ) < ((rnd64Pos n.toNat d).1 : ℤ) from by exact_mod_cast hpos⟩

theorem rnd64Mul_spec (w : ℕ) (m e : ℤ) (hw : 0 < w) (hm : 0 < m) :
    |((rnd64Mul w m e).1 : ℚ) * (2:ℚ) ^ (rnd64Mul w m e).2
        - (w:ℚ) * ((m:ℚ) * (2:ℚ) ^ e)|
      ≤ (w:ℚ) * ((m:ℚ) * (2:ℚ) ^ e) * (2:ℚ) ^ (-53 : ℤ) ∧
    0 < (rnd64Mul w m e).1 := by
  have hw' : (0:ℤ) < (w:ℤ) := by exact_mod_cast hw
  cases e with
  | ofNat nn =>
    simp only [rnd64Mul]
    have h1 := rnd64_spec ((w:ℤ) * m * 2 ^ nn) 1
      (by positivity) one_pos
    have hq : ((((w:ℤ) * m * 2 ^ nn : ℤ)) : ℚ) / ((1:ℕ) : ℚ)
        = (w:ℚ) * ((m:ℚ) * (2:ℚ) ^ (Int.ofNat nn)) := by
      rw [Int.ofNat_eq_natCast, zpow_natCast]
      push_cast
      ring
    rw [hq] at h1
    exact h1
  | negSucc nn =>
    simp only [rnd64Mul]
    have h1 := rnd64_spec ((w:ℤ) * m) (2 ^ (nn + 1))
      (by positivity) (by positivity)
    have hq : ((((w:ℤ) * m : ℤ)) : ℚ) / (((2 ^ (nn + 1) : ℕ)) : ℚ)
        = (w:ℚ) * ((m:ℚ) * (2:ℚ) ^ (Int.negSucc nn)) := by
      rw [zpow_negSucc]
      push_cast
      ring
    rw [hq] at h1
    exact h1

theorem truncDyadic_floor (m e : ℤ) (hm : 0 ≤ m) :
    truncDyadic m e = ⌊(m:ℚ) * (2:ℚ) ^ e⌋ := by
  cases e with
  | ofNat nn =>
    simp only [truncDyadic]
    rw [show ((m:ℚ) * (2:ℚ) ^ (Int.ofNat nn)) = ((m * 2 ^ nn : ℤ) : ℚ) from by
      rw [Int.ofNat_eq_natCast, zpow_natCast]
      push_cast
      ring]
    exact (Int.floor_intCast _).symm
  | negSucc nn =>
    simp only [truncDyadic]
    rw [show ((m:ℚ) * (2:ℚ) ^ (Int.negSucc nn)) = (m:ℚ) / (((2 ^ (nn + 1) : ℕ)) : ℚ) from by
      rw [zpow_negSucc]
      push_cast
      ring,
      Rat.floor_intCast_div_natCast]
    rcases eq_or_lt_of_le hm with h0 | hpos
    · rw [← h0]
      simp
    · rw [Int.sign_eq_one_of_pos hpos, one_mul,
        show m = (m.natAbs : ℤ) from by omega]
      exact (Int.ofNat_ediv m.natAbs (2 ^ (nn + 1))).symm

theorem preprocessDims_eq (h w : ℕ) (cfg : Config)
    (hc : cfg.max_dim ≠ 0 ∧ cfg.max_dim < (max h w : ℤ)) :
    preprocessDims h w cfg =
      (truncDyadic
        (rnd64Mul h (rnd64 cfg.max_dim (max h w)).1 (rnd64 cfg.max_dim (max h w)).2).1
        (rnd64Mul h (rnd64 cfg.max_dim (max h w)).1 (rnd64 cfg.max_dim (max h w)).2).2,
       truncDyadic
        (rnd64Mul w (rnd64 cfg.max_dim (max h w)).1 (rnd64 cfg.max_dim (max h w)).2).1
        (rnd64Mul w (rnd64 cfg.max_dim (max h w)).1 (rnd64 cfg.max_dim (max h w)).2).2) := by
  unfold preprocessDims
  rw [if_pos hc]

/-- **C9** amended: when `maxDimension > 0` (and below `2⁵¹`) and the
longer side exceeds it, the resized longer side is `maxDimension` or
`maxDimension − 1` — binary64 truncation can lose one pixel, so it is
not always exactly `maxDimension`; when `maxDimension = 0` or the longer
side does not exceed it, the dimensions pass through unchanged.  (For a
negative `maxDimension` the source still takes the resize branch —
Python truthiness `if cfg.max_dim` — so the pass-through clause is
restricted accordingly.) -/
theorem preprocess_resize_amended (h w : ℕ) (cfg : Config) :
    (0 < h → h ≤ w → 0 < cfg.max_dim → cfg.max_dim ≤ 2 ^ 51 → cfg.max_dim < (w : ℤ) →
      cfg.max_dim - 1 ≤ (preprocessDims h w cfg).2 ∧
        (preprocessDims h w cfg).2 ≤ cfg.max_dim) ∧
    ((cfg.max_dim = 0 ∨ (max h w : ℤ) ≤ cfg.max_dim) →
      preprocessDims h w cfg = ((h : ℤ), (w : ℤ))) := by
  constructor
  · intro hh hhw hM hM51 hMw
    have hmax : max h w = w := by omega
    have hcond : cfg.max_dim ≠ 0 ∧ cfg.max_dim < (max h w : ℤ) := ⟨by omega, by omega⟩
    have hw0 : 0 < w := by
      have : (0:ℤ) < (w:ℤ) := lt_trans hM hMw
      exact_mod_cast this
    have hw' : (0:ℚ) < (w:ℚ) := by exact_mod_cast hw0
    rw [preprocessDims_eq h w cfg hcond, hmax]
    obtain ⟨hserr, hspos⟩ := rnd64_spec cfg.max_dim w hM hw0
    obtain ⟨hterr, htpos⟩ :=
      rnd64Mul_spec w (rnd64 cfg.max_dim w).1 (rnd64 cfg.max_dim w).2 hw0 hspos
    have hfloor : truncDyadic
          (rnd64Mul w (rnd64 cfg.max_dim w).1 (rnd64 cfg.max_dim w).2).1
          (rnd64Mul w (rnd64 cfg.max_dim w).1 (rnd64 cfg.max_dim w).2).2
        = ⌊((rnd64Mul w (rnd64 cfg.max_dim w).1 (rnd64 cfg.max_dim w).2).1 : ℚ)
            * (2:ℚ) ^ (rnd64Mul w (rnd64 cfg.max_dim w).1 (rnd64 cfg.max_dim w).2).2⌋ :=
      truncDyadic_floor _ _ htpos.le
    set sval : ℚ := ((rnd64 cfg.max_dim w).1 : ℚ) * (2:ℚ) ^ (rnd64 cfg.max_dim w).2
      with hsval
    set tval : ℚ := ((rnd64Mul w (rnd64 cfg.max_dim w).1 (rnd64 cfg.max_dim w).2).1 : ℚ)
      * (2:ℚ) ^ (rnd64Mul w (rnd64 cfg.max_dim w).1 (rnd64 cfg.max_dim w).2).2
      with htval
    have hε : ((2:ℚ) ^ (-53 : ℤ)) = ((2:ℚ) ^ (53:ℕ))⁻¹ := by
      rw [zpow_neg]
      norm_num
    have hMq : (0:ℚ) < (cfg.max_dim : ℚ) := by exact_mod_cast hM
    have hM51q : (cfg.max_dim : ℚ) ≤ 2 ^ 51 := by exact_mod_cast hM51
    have hwsq : (w:ℚ) * ((cfg.max_dim : ℚ) / (w:ℚ)) = (cfg.max_dim : ℚ) := by
      field_simp
    obtain ⟨hs1, hs2⟩ := abs_le.mp hserr
    obtain ⟨ht1, ht2⟩ := abs_le.mp hterr
    rw [hε] at hs1 hs2 ht1 ht2
    -- bounds on X := w * sval
    have hA1 : (cfg.max_dim : ℚ) * (1 - ((2:ℚ) ^ (53:ℕ))⁻¹) ≤ (w:ℚ) * sval := by
      have e1 : (w:ℚ) * ((cfg.max_dim : ℚ) / (w:ℚ)
            - ((cfg.max_dim : ℚ) / (w:ℚ)) * ((2:ℚ) ^ (53:ℕ))⁻¹)
          = (cfg.max_dim : ℚ) * (1 - ((2:ℚ) ^ (53:ℕ))⁻¹) := by
        rw [mul_sub, hwsq, ← mul_assoc, hwsq]
        ring
      rw [← e1]
      apply mul_le_mul_of_nonneg_left _ hw'.le
      linarith
    have hA2 : (w:ℚ) * sval ≤ (cfg.max_dim : ℚ) * (1 + ((2:ℚ) ^ (53:ℕ))⁻¹) := by
      have e2 : (w:ℚ) * ((cfg.max_dim : ℚ) / (w:ℚ)
            + ((cfg.max_dim : ℚ) / (w:ℚ)) * ((2:ℚ) ^ (53:ℕ))⁻¹)
          = (cfg.max_dim : ℚ) * (1 + ((2:ℚ) ^ (53:ℕ))⁻¹) := by
        rw [mul_add, hwsq, ← mul_assoc, hwsq]
        ring
      rw [← e2]
      apply mul_le_mul_of_nonneg_left _ hw'.le
      linarith
    have hnum : ((2:ℚ) ^ (53:ℕ))⁻¹ ≤ 1 / 9007199254740992 := by norm_num
    have hnum0 : (0:ℚ) < ((2:ℚ) ^ (53:ℕ))⁻¹ := by positivity
    rw [hfloor]
    constructor
    · rw [Int.le_floor]
      push_cast
      nlinarith [ht1, hA1, hA2, hM51q, hMq, hnum, hnum0]
    · rw [Int.floor_le_iff]
      push_cast
      nlinarith [ht2, hA1, hA2, hM51q, hMq, hnum, hnum0]
  · intro hor
    unfold preprocessDims
    rw [if_neg]
    rintro ⟨hne, hlt⟩
    rcases hor with h0 | hle
    · exact hne h0
    · exact absurd hlt (not_lt.mpr hle)

/-- **C9** counterexample: with the default configuration
(`max_dim = 900`) an 800×1129 image — longer side 1129 > 900 — is
resized so that its longer side is 899, not 900:
`int(1129 * (900/1129.0))` truncates the double `899.9999999999999`.
The claim's "longer side equals exactly maxDimension" is false. -/
theorem preprocess_resize_cex :
    (preprocessDims 800 1129 {}).2 = 899 ∧ (899 : ℤ) ≠ 900 := by
  constructor
  · decide
  · decide

theorem preprocess_resize_amended_witness :
    (899 : ℤ) ≤ (preprocessDims 800 1129 {}).2 ∧
      (preprocessDims 800 1129 {}).2 ≤ 900 := by
  obtain ⟨h1, h2⟩ := (preprocess_resize_amended 800 1129 {}).1
    (by decide) (by decide) (by decide) (by decide) (by decide)
  have hc : ({} : Config).max_dim = 900 := rfl
  constructor <;> omega

/-! ## C5: contour validity filter (corrected)

The claim's effective-minimum formula `max(50, ⌊0.0005·h·w⌋)` is false
of the program: the two intermediate binary64 roundings of
`(0.0005*h)*w` can land just below an integer and `int` truncates one
lower — CPython's `int(0.0005*145*800)` is 57 (`57.99999999999999`),
not `⌊145·800/2000⌋ = 58`.  The corrected statement uses the program's
binary64 value `pyMinAreaFloat`, and proves it is always `⌊h·w/2000⌋`
or `⌊h·w/2000⌋ − 1`. -/

theorem pyMinAreaFloat_eq (h w : ℕ) :
    pyMinAreaFloat h w =
      truncDyadic
        (rnd64Mul w (rnd64Mul h (rnd64 1 2000).1 (rnd64 1 2000).2).1
          (rnd64Mul h (rnd64 1 2000).1 (rnd64 1 2000).2).2).1
        (rnd64Mul w (rnd64Mul h (rnd64 1 2000).1 (rnd64 1 2000).2).1
          (rnd64Mul h (rnd64 1 2000).1 (rnd64 1 2000).2).2).2 := rfl

set_option maxHeartbeats 1000000 in
/-- The binary64 `int(0.0005*h*w)` is within one below the exact floor:
each of the three roundings has relative error at most `2⁻⁵³`, and
`h·w ≤ 2⁴¹` keeps the accumulated error under the distance to the next
integer. -/
theorem pyMinAreaFloat_bounds (h w : ℕ) (hh : 0 < h) (hw : 0 < w)
    (hsz : h * w ≤ 2 ^ 41) :
    ((h * w / 2000 : ℕ) : ℤ) - 1 ≤ pyMinAreaFloat h w ∧
      pyMinAreaFloat h w ≤ ((h * w / 2000 : ℕ) : ℤ) := by
  have hh' : (0:ℚ) ≤ (h:ℚ) := by positivity
  have hw'' : (0:ℚ) ≤ (w:ℚ) := by positivity
  obtain ⟨hcerr, hcpos⟩ := rnd64_spec 1 2000 one_pos (by norm_num)
  obtain ⟨hp1err, hp1pos⟩ :=
    rnd64Mul_spec h (rnd64 1 2000).1 (rnd64 1 2000).2 hh hcpos
  obtain ⟨hp2err, hp2pos⟩ :=
    rnd64Mul_spec w (rnd64Mul h (rnd64 1 2000).1 (rnd64 1 2000).2).1
      (rnd64Mul h (rnd64 1 2000).1 (rnd64 1 2000).2).2 hw hp1pos
  rw [pyMinAreaFloat_eq, truncDyadic_floor _ _ hp2pos.le]
  push_cast at hcerr
  have hε : ((2:ℚ) ^ (-53 : ℤ)) = ((2:ℚ) ^ (53:ℕ))⁻¹ := by
    rw [zpow_neg]
    norm_num
  rw [hε] at hcerr hp1err hp2err
  set cval : ℚ := ((rnd64 1 2000).1 : ℚ) * (2:ℚ) ^ (rnd64 1 2000).2 with hcval
  set p1val : ℚ := ((rnd64Mul h (rnd64 1 2000).1 (rnd64 1 2000).2).1 : ℚ)
    * (2:ℚ) ^ (rnd64Mul h (rnd64 1 2000).1 (rnd64 1 2000).2).2 with hp1v
  set p2val : ℚ :=
    ((rnd64Mul w (rnd64Mul h (rnd64 1 2000).1 (rnd64 1 2000).2).1
        (rnd64Mul h (rnd64 1 2000).1 (rnd64 1 2000).2).2).1 : ℚ)
      * (2:ℚ) ^ (rnd64Mul w (rnd64Mul h (rnd64 1 2000).1 (rnd64 1 2000).2).1
        (rnd64Mul h (rnd64 1 2000).1 (rnd64 1 2000).2).2).2 with hp2v
  obtain ⟨hc1, hc2⟩ := abs_le.mp hcerr
  obtain ⟨h11, h12⟩ := abs_le.mp hp1err
  obtain ⟨h21, h22⟩ := abs_le.mp hp2err
  -- one rounding: h · cval is within h·(1/2000)·ε of h/2000
  have hyu : (h:ℚ) * cval
      ≤ (h:ℚ) * (1 / 2000 + 1 / 2000 * ((2:ℚ) ^ (53:ℕ))⁻¹) := by
    apply mul_le_mul_of_nonneg_left _ hh'
    linarith
  have hyl : (h:ℚ) * (1 / 2000 - 1 / 2000 * ((2:ℚ) ^ (53:ℕ))⁻¹)
      ≤ (h:ℚ) * cval := by
    apply mul_le_mul_of_nonneg_left _ hh'
    linarith
  -- two roundings: p1val within 3ε relative of h/2000 (ε² ≤ ε)
  have hp1u : p1val ≤ (h:ℚ) * (1 / 2000 + 3 / 2000 * ((2:ℚ) ^ (53:ℕ))⁻¹) := by
    linarith
  have hp1l : (h:ℚ) * (1 / 2000 - 3 / 2000 * ((2:ℚ) ^ (53:ℕ))⁻¹) ≤ p1val := by
    linarith
  -- multiply by w and rewrite w·h as the image area N
  have hzu : (w:ℚ) * p1val
      ≤ ((h * w : ℕ) : ℚ) * (1 / 2000 + 3 / 2000 * ((2:ℚ) ^ (53:ℕ))⁻¹) := by
    calc (w:ℚ) * p1val
        ≤ (w:ℚ) * ((h:ℚ) * (1 / 2000 + 3 / 2000 * ((2:ℚ) ^ (53:ℕ))⁻¹)) :=
          mul_le_mul_of_nonneg_left hp1u hw''
      _ = ((h * w : ℕ) : ℚ) * (1 / 2000 + 3 / 2000 * ((2:ℚ) ^ (53:ℕ))⁻¹) := by
          push_cast
          ring
  have hzl : ((h * w : ℕ) : ℚ) * (1 / 2000 - 3 / 2000 * ((2:ℚ) ^ (53:ℕ))⁻¹)
      ≤ (w:ℚ) * p1val := by
    calc ((h * w : ℕ) : ℚ) * (1 / 2000 - 3 / 2000 * ((2:ℚ) ^ (53:ℕ))⁻¹)
        = (w:ℚ) * ((h:ℚ) * (1 / 2000 - 3 / 2000 * ((2:ℚ) ^ (53:ℕ))⁻¹)) := by
          push_cast
          ring
      _ ≤ (w:ℚ) * p1val := mul_le_mul_of_nonneg_left hp1l hw''
  -- three roundings: p2val within 8ε relative of N/2000
  have hN0 : (0:ℚ) ≤ ((h * w : ℕ) : ℚ) := by positivity
  have hp2u : p2val
      ≤ ((h * w : ℕ) : ℚ) * (1 / 2000 + 8 / 2000 * ((2:ℚ) ^ (53:ℕ))⁻¹) := by
    nlinarith [h22, hzu, hN0]
  have hp2l : ((h * w : ℕ) : ℚ) * (1 / 2000 - 8 / 2000 * ((2:ℚ) ^ (53:ℕ))⁻¹)
      ≤ p2val := by
    nlinarith [h21, hzl, hN0]
  -- final: the accumulated error stays below 1/2000
  have hdm : 2000 * (h * w / 2000) + h * w % 2000 = h * w := Nat.div_add_mod (h * w) 2000
  have hNcast : ((h * w : ℕ) : ℚ)
      = 2000 * ((h * w / 2000 : ℕ) : ℚ) + ((h * w % 2000 : ℕ) : ℚ) := by
    exact_mod_cast hdm.symm
  have hRb : ((h * w % 2000 : ℕ) : ℚ) ≤ 1999 := by
    exact_mod_cast (by omega : h * w % 2000 ≤ 1999)
  have hR0 : (0:ℚ) ≤ ((h * w % 2000 : ℕ) : ℚ) := by positivity
  have hF0 : (0:ℚ) ≤ ((h * w / 2000 : ℕ) : ℚ) := by positivity
  have hNb : ((h * w : ℕ) : ℚ) ≤ 2 ^ 41 := by exact_mod_cast hsz
  constructor
  · rw [Int.le_floor, Int.cast_sub, Int.cast_one, Int.cast_natCast]
    linarith
  · rw [Int.floor_le_iff, Int.cast_natCast]
    linarith

/-- **C5** counterexample: for a 145×800 processed image with
`min_area` left at its auto default, the source computes
`max(50, int(0.0005*145*800)) = max(50, 57) = 57` (CPython:
`0.0005*145*800 == 57.99999999999999`), while the claim's formula
`max(50, ⌊0.0005·145·800⌋)` gives 58. -/
theorem minArea_float_cex :
    _estimate_min_area 145 800 {} = 57 ∧
    max 50 ((145 * 800 / 2000 : ℕ) : ℤ) = 58 ∧ (57 : ℤ) ≠ 58 :=
  ⟨by decide, by decide, by decide⟩

/-- **C5** amended: a contour is accepted iff its area is at least the
effective minimum region area, its bounding-box height is nonzero and
its width-to-height ratio is at most 0.40; the effective minimum equals
the configured `min_area` when positive, and otherwise
`max(50, int(0.0005·h·w))` computed in binary64 — which is at most, and
can be exactly one below, the original claim's
`max(50, ⌊0.0005·h·w⌋)`. -/
theorem validContours_spec (area : ℚ) (w h hI wI : ℕ) (cfg : Config) :
    (validContours area w h (_estimate_min_area hI wI cfg) = true ↔
      ((_estimate_min_area hI wI cfg : ℚ) ≤ area ∧ h ≠ 0 ∧
        (w : ℚ) / (h : ℚ) ≤ 2 / 5)) ∧
    (0 < cfg.min_area → _estimate_min_area hI wI cfg = cfg.min_area) ∧
    (cfg.min_area ≤ 0 →
      _estimate_min_area hI wI cfg = max 50 (pyMinAreaFloat hI wI)) ∧
    (cfg.min_area ≤ 0 → 0 < hI → 0 < wI → hI * wI ≤ 2 ^ 41 →
      max 50 (((hI * wI / 2000 : ℕ) : ℤ) - 1) ≤ _estimate_min_area hI wI cfg ∧
        _estimate_min_area hI wI cfg ≤ max 50 ((hI * wI / 2000 : ℕ) : ℤ)) := by
  refine ⟨?_, fun hpos => by rw [_estimate_min_area, if_pos hpos],
    fun hnp => by rw [_estimate_min_area, if_neg (by omega)],
    fun hnp hhI hwI hsz => ?_⟩
  · unfold validContours
    split_ifs with h1 h2
    · simp only [Bool.false_eq_true, false_iff]
      rintro ⟨hm, -, -⟩
      exact absurd h1 (not_lt.mpr hm)
    · simp only [Bool.false_eq_true, false_iff]
      rintro ⟨-, hh, hr⟩
      rcases h2 with h2 | h2
      · exact hh h2
      · exact absurd h2 (not_lt.mpr hr)
    · push_neg at h2
      exact iff_of_true rfl ⟨not_lt.mp h1, h2.1, h2.2⟩
  · have he : _estimate_min_area hI wI cfg = max 50 (pyMinAreaFloat hI wI) := by
      rw [_estimate_min_area, if_neg (by omega)]
    obtain ⟨hb1, hb2⟩ := pyMinAreaFloat_bounds hI wI hhI hwI hsz
    rw [he]
    exact ⟨max_le_max le_rfl hb1, max_le_max le_rfl hb2⟩

theorem validContours_spec_witness :
    (0 : ℤ) < 7 ∧ _estimate_min_area 100 200 {min_area := 7} = 7 ∧
    max 50 (((145 * 800 / 2000 : ℕ) : ℤ) - 1) ≤ _estimate_min_area 145 800 {} ∧
    validContours 58 2 10 (_estimate_min_area 145 800 {}) = true := by
  refine ⟨by decide,
    (validContours_spec 50 2 10 100 200 {min_area := 7}).2.1 (by decide), ?_, ?_⟩
  · exact ((validContours_spec 50 2 10 145 800 {}).2.2.2
      (by decide) (by decide) (by decide) (by decide)).1
  · have he : _estimate_min_area 145 800 {} = 57 := by decide
    refine (validContours_spec 58 2 10 145 800 {}).1.mpr ⟨?_, by decide, by norm_num⟩
    rw [he]
    norm_num

end Resist
